import Mathlib

/-!
# Verification of the LocalAImodel upload/translation backend

Shallow embedding of the core of `src/ui/backend/app/` (the chunked-upload
assembler in `main.py`, the job store in `jobs.py`, the job runner in
`process.py`, the text splitter and translation pipeline in `translator.py`,
and the text extractor in `readers.py`), together with theorems settling the
spec claims about them.

Python strings are modelled as `List Char`, file bytes as `List Nat`, and
Python floats as `ℚ` (the float literals involved — `0.01`, `0.95`, `1.0`,
`i / total` — are compared only where the rational comparison and the IEEE
double comparison agree, with margins far above double rounding error).
-/

namespace LocalAI

/-! ## TextSplitter (`translator.py`, `_split_text`)

```python
def _split_text(text, max_chars=8000):
    chunks = []
    start = 0
    n = len(text)
    while start < n:
        end = min(n, start + max_chars)
        cut = text.rfind('\n', start, end)
        if cut == -1:
            cut = text.rfind('. ', start, end)
        if cut != -1 and cut > start + int(max_chars * 0.5):
            end = cut + 1
        chunks.append(text[start:end])
        start = end
    return chunks
```

The loop is modelled on the suffix `s = text[start:]`, so `rfind` positions
become offsets from the window start.  `int(max_chars * 0.5)` is exact float
arithmetic for any realistic `max_chars` and equals `max_chars / 2` in `Nat`
division.  For `max_chars = 0` and nonempty text the Python loop diverges;
the model returns `[]` there and every theorem assumes `max_chars ≥ 1`. -/

/-- Last index `j < w` satisfying `p` (the model of Python `rfind` over the
window `[start, start + w)`, in window-relative coordinates). -/
def lastIdxSat (p : Nat → Bool) : Nat → Option Nat
  | 0 => none
  | w + 1 => if p w then some w else lastIdxSat p w

/-- `text.rfind('\n', start, end)` probe at relative offset `j`. -/
def nlAt (s : List Char) (j : Nat) : Bool := s.get? j == some '\n'

/-- `text.rfind('. ', start, end)` probe at relative offset `j`: a two-char
match, so it must fit inside the window (`j + 2 ≤ w`). -/
def dotSpaceAt (s : List Char) (j : Nat) : Bool :=
  (s.get? j == some '.') && (s.get? (j + 1) == some ' ')

/-- `end - start` before boundary adjustment: `min(n, start + max_chars) - start`. -/
def window (mc : Nat) (s : List Char) : Nat := min s.length mc

/-- The `cut` variable (window-relative): last newline in the window, else
last `'. '` occurrence; `none` models `cut == -1`. -/
def cutCandidate (mc : Nat) (s : List Char) : Option Nat :=
  match lastIdxSat (nlAt s) (window mc s) with
  | some j => some j
  | none => lastIdxSat (dotSpaceAt s) (window mc s - 1)

/-- Length of the chunk taken in one loop iteration: `cut + 1` when the
candidate passes `cut > start + int(max_chars * 0.5)`, else the full window. -/
def step (mc : Nat) (s : List Char) : Nat :=
  match cutCandidate mc s with
  | some j => if mc / 2 < j then j + 1 else window mc s
  | none => window mc s

/-- One chunk per loop iteration; `m + 1` is the (positive) `max_chars`.
`fuel` bounds the number of iterations: since every iteration consumes at
least one character, `fuel = s.length` is always enough (proved below), and
the fuel-based recursion keeps the definition kernel-computable. -/
def splitGo (m : Nat) : Nat → List Char → List (List Char)
  | 0, _ => []
  | fuel + 1, s =>
    if s = [] then []
    else s.take (step (m + 1) s) :: splitGo m fuel (s.drop (step (m + 1) s))

/-- `_split_text(text, max_chars)`.  The source diverges for
`max_chars = 0` on nonempty input; that case is modelled as `[]` and is
excluded by the `1 ≤ max_chars` hypotheses of every theorem. -/
def split_text (text : List Char) (max_chars : Nat) : List (List Char) :=
  match max_chars with
  | 0 => []
  | m + 1 => splitGo m text.length text

-- Sanity checks of the embedding against hand-traced runs of the Python code.
/-! ### C8: the cut-acceptance rule

The claim says a boundary candidate is accepted exactly when its offset from
the window start is `≥ max_chars * 0.5`.  The code's test is
`cut > start + int(max_chars * 0.5)`, i.e. strictly greater than the
*floored* half.  The two differ for even `max_chars` at offset exactly
`max_chars / 2`.  `split_text_spec_midpoint` below transcribes the claim's
rule (`offset ≥ max_chars * 0.5`, exactly `2 * j ≥ mc` over the integers)
for comparison with the source-derived `split_text`. -/

/-- Chunk length per iteration under the claim's acceptance rule
(`offset ≥ max_chars * 0.5`); candidate selection as in the source. -/
def stepSpecMid (mc : Nat) (s : List Char) : Nat :=
  match cutCandidate mc s with
  | some j => if mc ≤ 2 * j then j + 1 else window mc s
  | none => window mc s

def splitGoSpecMid (m : Nat) : Nat → List Char → List (List Char)
  | 0, _ => []
  | fuel + 1, s =>
    if s = [] then []
    else s.take (stepSpecMid (m + 1) s)
      :: splitGoSpecMid m fuel (s.drop (stepSpecMid (m + 1) s))

/-- The splitter as the claim describes it: accept a cut candidate exactly
when its offset from the window start is at least `max_chars * 0.5`. -/
def split_text_spec_midpoint (text : List Char) (max_chars : Nat) :
    List (List Char) :=
  match max_chars with
  | 0 => []
  | m + 1 => splitGoSpecMid m text.length text

/-- `j` is the last newline offset inside the window `[0, w)`. -/
def IsLastNl (s : List Char) (w j : Nat) : Prop :=
  j < w ∧ s.get? j = some '\n' ∧ ∀ j' < w, j < j' → s.get? j' ≠ some '\n'

/-- No newline inside the window `[0, w)`. -/
def NoNlIn (s : List Char) (w : Nat) : Prop :=
  ∀ j < w, s.get? j ≠ some '\n'

/-- `j` is the last offset of a `'. '` occurrence fitting inside the window. -/
def IsLastDotSpace (s : List Char) (w j : Nat) : Prop :=
  j < w - 1 ∧ s.get? j = some '.' ∧ s.get? (j + 1) = some ' '
    ∧ ∀ j' < w - 1, j < j' →
        ¬(s.get? j' = some '.' ∧ s.get? (j' + 1) = some ' ')

/-- No `'. '` occurrence fitting inside the window. -/
def NoDotSpaceIn (s : List Char) (w : Nat) : Prop :=
  ∀ j < w - 1, ¬(s.get? j = some '.' ∧ s.get? (j + 1) = some ' ')

instance (s : List Char) (w j : Nat) : Decidable (IsLastNl s w j) := by
  unfold IsLastNl; infer_instance

instance (s : List Char) (w : Nat) : Decidable (NoNlIn s w) := by
  unfold NoNlIn; infer_instance

instance (s : List Char) (w j : Nat) : Decidable (IsLastDotSpace s w j) := by
  unfold IsLastDotSpace; infer_instance

instance (s : List Char) (w : Nat) : Decidable (NoDotSpaceIn s w) := by
  unfold NoDotSpaceIn; infer_instance

/-! ## ChunkAssembler (`main.py`, `upload_chunk` / `upload_complete`)

`upload_chunk` writes the posted payload to `up_dir / f'{index:08d}.part'`,
so a second call for the same index overwrites the part file.  The on-disk
part store after a sequence of uploads is therefore the last payload
received for each index.  `upload_complete` runs

```python
with final_path.open('wb') as out:
    for i in range(total_chunks):
        part = up_dir / f'{i:08d}.part'
        if not part.exists():
            raise HTTPException(status_code=400, detail=f'missing chunk {i}')
        with part.open('rb') as pf:
            shutil.copyfileobj(pf, out)
shutil.rmtree(up_dir, ignore_errors=True)
```

Note `rmtree` is *after* the `with` block, not in a `finally`: raising on a
missing chunk skips it, and the partially written `final_path` persists. -/

abbrev Bytes := List Nat

/-- The part store of one upload session after the `upload_chunk` calls
listed in `events` (in arrival order): the part file for index `i` holds the
payload of the *last* event for `i`, or is absent if none arrived. -/
def partStore (events : List (Nat × Bytes)) (i : Nat) : Option Bytes :=
  ((events.filter (fun e => e.1 == i)).getLast?).map Prod.snd

/-- The `for i in range(total_chunks)` loop of `upload_complete`: from index
`i` with `fuel` indices left and `acc` already written to `final_path`,
returns the bytes written and the first missing index, if any. -/
def assembleGo (store : Nat → Option Bytes) : Nat → Nat → Bytes → Bytes × Option Nat
  | _, 0, acc => (acc, none)
  | i, fuel + 1, acc =>
    match store i with
    | none => (acc, some i)
    | some b => assembleGo store (i + 1) fuel (acc ++ b)

structure CompleteOutcome where
  /-- `.error i` models `HTTPException(400, 'missing chunk i')`. -/
  result : Except Nat Unit
  /-- Final contents of `final_path` (partial if the loop raised). -/
  written : Bytes
  /-- Whether `shutil.rmtree(up_dir)` ran. -/
  cleaned : Bool

/-- `upload_complete(upload_id, total_chunks)` for a known session whose part
files are described by `events`. -/
def upload_complete (events : List (Nat × Bytes)) (total_chunks : Nat) :
    CompleteOutcome :=
  match assembleGo (partStore events) 0 total_chunks [] with
  | (written, none) => { result := .ok (), written := written, cleaned := true }
  | (written, some i) => { result := .error i, written := written, cleaned := false }

/-! ## Extractor, pipeline and job runner
(`readers.py`, `translator.py`, `jobs.py`, `process.py`)

The job runner `start_translation_job` spawns a thread running:

```python
job_store.update(job_id, status='running', progress=0.01, message='Starting')
...
def on_progress(p, msg):
    job_store.update(job_id, progress=max(0.0, min(1.0, p)), message=msg)
translate_file_to_docx(..., progress_cb=on_progress)
job_store.update(job_id, status='done', progress=1.0, message='Done', ...)
```

and the pipeline `translate_file_to_docx` reports
`progress_cb(i / total, 'Translating chunk i+1/total')` before each chunk,
then `progress_cb(0.95, 'Writing Word document')` and
`progress_cb(1.0, 'Done')`.  The model records the successive stored job
states, starting from the `queued` record made by `JobStore.create`.  Floats
are modelled as `ℚ`; every comparison the theorems rely on
(`0.0 < 0.01`, `20/21 > 0.95`, monotonicity of `i / total` in `i`) holds
identically for IEEE doubles. -/

inductive Status where
  | queued
  | running
  | done
  | error
deriving DecidableEq

structure JobState where
  status : Status
  progress : ℚ
  message : String
deriving DecidableEq

/-- Outcome of one `translate_file_to_docx` call: the `progress_cb` events in
order, the full text handed to `write_docx`, and how many times the
per-chunk translation collaborator was invoked. -/
structure PipeRun where
  events : List (ℚ × String)
  output : List Char
  translatorCalls : Nat

def chunkMsg (i total : Nat) : String :=
  "Translating chunk " ++ toString (i + 1) ++ "/" ++ toString total

/-- `_translate_fallback(chunk, source_lang, target_lang)` (the collaborator
used when `OPENAI_API_KEY` is unset). -/
def translate_fallback (target_lang : String) (chunk : List Char) : List Char :=
  ("[Translation disabled: set OPENAI_API_KEY to translate to "
    ++ target_lang ++ "]\n\n").toList ++ chunk

/-- `translate_file_to_docx` with the per-chunk translation collaborator
abstracted as `translate` (the OpenAI call or the fallback). -/
def translate_file_to_docx (text : List Char) (maxChars : Nat)
    (translate : List Char → List Char) : PipeRun :=
  let chunks := split_text text maxChars
  let total := max 1 chunks.length
  { events := ((List.range chunks.length).map
        (fun (i : Nat) => ((i : ℚ) / (total : ℚ), chunkMsg i total)))
      ++ [((95 : ℚ) / 100, "Writing Word document"), (1, "Done")]
  , output := List.intercalate ['\n'] (chunks.map translate)
  , translatorCalls := chunks.length }

/-- `max(0.0, min(1.0, p))` from `on_progress` in `process.py`. -/
def clamp01 (p : ℚ) : ℚ := max 0 (min 1 p)

/-- The successive stored states of one job on the success path: the
`queued` record from `JobStore.create`, the `running/0.01/Starting` update,
one state per `progress_cb` event (status stays `running` since `update`
merges only the named fields), and the final `done` update. -/
def runStates (text : List Char) (maxChars : Nat)
    (translate : List Char → List Char) : List JobState :=
  let pr := translate_file_to_docx text maxChars translate
  { status := .queued, progress := 0, message := "Queued" }
    :: { status := .running, progress := 1 / 100, message := "Starting" }
    :: (pr.events.map (fun e =>
          { status := Status.running, progress := clamp01 e.1, message := e.2 }))
      ++ [{ status := .done, progress := 1, message := "Done" }]

/-- The claim's property: across successive stored states, no update stores
a progress smaller than the current one while the stored status is
`running`. -/
def ProgressMonotoneWhileRunning : List JobState → Prop
  | [] => True
  | [_] => True
  | a :: b :: rest =>
      (a.status = Status.running → a.progress ≤ b.progress)
        ∧ ProgressMonotoneWhileRunning (b :: rest)

/-- ASCII model of Python `str.lower()` on one character (file suffixes are
ASCII in this code base). -/
def lowerChar (c : Char) : Char :=
  if 'A' ≤ c ∧ c ≤ 'Z' then Char.ofNat (c.toNat + 32) else c

/-- `file_path.suffix.lower()` applied to the suffix's characters. -/
def lowerStr (s : List Char) : List Char := s.map lowerChar

def supportedTextExts : List (List Char) :=
  [".txt".toList, ".md".toList, ".csv".toList, ".srt".toList, ".log".toList]

/-- An uploaded file as the extractor sees it: its path suffix, its decoded
text content (for the plain-text branch), and the paragraph/table-row texts
the `python-docx` collaborator would yield (for the `.docx` branch). -/
structure SrcFile where
  ext : List Char
  textContent : List Char
  docxParts : List (List Char)

def unsupportedMessage (ext : List Char) : List Char :=
  "[Unsupported file type: ".toList ++ ext
    ++ ". Please upload a .txt or .docx file.]".toList

/-- `extract_text` from `readers.py`: known text suffixes are read as text,
`.docx` goes through the docx collaborator with parts joined by newlines,
and any other suffix returns the placeholder message — it does *not* raise. -/
def extract_text (f : SrcFile) : List Char :=
  let ext := lowerStr f.ext
  if ext ∈ supportedTextExts then f.textContent
  else if ext = ".docx".toList then List.intercalate ['\n'] f.docxParts
  else unsupportedMessage ext

/-- The stored states of a job started on file `f` (extraction feeding the
pipeline, as in `process.py`). -/
def runJobFile (f : SrcFile) (maxChars : Nat)
    (translate : List Char → List Char) : List JobState :=
  runStates (extract_text f) maxChars translate

/-! ## JobStore.update (`jobs.py`)

```python
def update(self, job_id, **kwargs):
    with self._lock:
        job = self._jobs.get(job_id)
        if not job:
            return
        for k, v in kwargs.items():
            if hasattr(job, k):
                setattr(job, k, v)
```

A stored `Job` dataclass record is modelled with its eight fields holding
arbitrary Python values; `getAttr`/`setAttr` model `getattr`/`setattr` on
the known field names, with `getAttr = none` modelling `hasattr == False`
(the dataclass instances never gain extra attributes, because `setattr` is
only reached under the `hasattr` guard). -/

/-- A Python value stored in a `Job` field. -/
inductive PyVal where
  | str : String → PyVal
  | rat : ℚ → PyVal
  | ostr : Option String → PyVal
deriving DecidableEq

/-- The `Job` dataclass record (field values as the dynamic `PyVal`). -/
structure JobRec where
  job_id : PyVal
  status : PyVal
  progress : PyVal
  message : PyVal
  file_path : PyVal
  source_lang : PyVal
  target_lang : PyVal
  output_path : PyVal
deriving DecidableEq

/-- `getattr(job, k)`; `none` models `hasattr(job, k) == False`. -/
def getAttr (j : JobRec) (k : String) : Option PyVal :=
  if k = "job_id" then some j.job_id
  else if k = "status" then some j.status
  else if k = "progress" then some j.progress
  else if k = "message" then some j.message
  else if k = "file_path" then some j.file_path
  else if k = "source_lang" then some j.source_lang
  else if k = "target_lang" then some j.target_lang
  else if k = "output_path" then some j.output_path
  else none

/-- `setattr(job, k, v)` for the known field names; unknown names leave the
record unchanged (the code only calls `setattr` under the `hasattr` guard). -/
def setAttr (j : JobRec) (k : String) (v : PyVal) : JobRec :=
  if k = "job_id" then { j with job_id := v }
  else if k = "status" then { j with status := v }
  else if k = "progress" then { j with progress := v }
  else if k = "message" then { j with message := v }
  else if k = "file_path" then { j with file_path := v }
  else if k = "source_lang" then { j with source_lang := v }
  else if k = "target_lang" then { j with target_lang := v }
  else if k = "output_path" then { j with output_path := v }
  else j

/-- The kwargs-merging loop of `JobStore.update` for an existing job. -/
def update_fields (j : JobRec) (kwargs : List (String × PyVal)) : JobRec :=
  kwargs.foldl
    (fun acc kv =>
      if (getAttr acc kv.1).isSome then setAttr acc kv.1 kv.2 else acc) j

/-! ## Theorems -/

theorem lastIdxSat_bound {p : Nat → Bool} :
    ∀ {w j : Nat}, lastIdxSat p w = some j → j < w ∧ p j = true := by
  intro w
  induction w with
  | zero => intro j h; simp [lastIdxSat] at h
  | succ w ih =>
    intro j h
    by_cases hp : p w = true
    · simp [lastIdxSat, hp] at h
      exact ⟨by omega, h ▸ hp⟩
    · simp [lastIdxSat, hp] at h
      rcases ih h with ⟨h1, h2⟩
      exact ⟨by omega, h2⟩

theorem cutCandidate_lt_window {mc : Nat} {s : List Char} {j : Nat}
    (h : cutCandidate mc s = some j) : j < window mc s := by
  unfold cutCandidate at h
  rcases hnl : lastIdxSat (nlAt s) (window mc s) with _ | j'
  · rw [hnl] at h
    have := lastIdxSat_bound h
    omega
  · rw [hnl] at h
    have := lastIdxSat_bound hnl
    simp at h
    omega

theorem step_eq_some {mc : Nat} {s : List Char} {j : Nat}
    (hc : cutCandidate mc s = some j) :
    step mc s = if mc / 2 < j then j + 1 else window mc s := by
  unfold step
  rw [hc]

theorem step_eq_none {mc : Nat} {s : List Char}
    (hc : cutCandidate mc s = none) : step mc s = window mc s := by
  unfold step
  rw [hc]

theorem step_le_window (mc : Nat) (s : List Char) : step mc s ≤ window mc s := by
  rcases hc : cutCandidate mc s with _ | j
  · rw [step_eq_none hc]
  · rw [step_eq_some hc]
    have := cutCandidate_lt_window hc
    split <;> omega

theorem step_le (mc : Nat) (s : List Char) : step mc s ≤ mc :=
  le_trans (step_le_window mc s) (min_le_right _ _)

theorem step_pos (mc : Nat) (s : List Char) (hmc : 1 ≤ mc) (hs : s ≠ []) :
    1 ≤ step mc s := by
  have hw : 1 ≤ window mc s := by
    have : 1 ≤ s.length := List.length_pos.mpr hs
    unfold window
    omega
  rcases hc : cutCandidate mc s with _ | j
  · rw [step_eq_none hc]
    exact hw
  · rw [step_eq_some hc]
    split <;> omega

theorem splitGo_nil (m : Nat) (fuel : Nat) : splitGo m fuel [] = [] := by
  cases fuel <;> simp [splitGo]

theorem splitGo_fuel_inv (m : Nat) :
    ∀ (f1 f2 : Nat) (s : List Char), s.length ≤ f1 → s.length ≤ f2 →
      splitGo m f1 s = splitGo m f2 s := by
  intro f1
  induction f1 with
  | zero =>
    intro f2 s h1 _
    have : s = [] := List.eq_nil_of_length_eq_zero (by omega)
    subst this
    simp [splitGo_nil]
  | succ f1 ih =>
    intro f2 s h1 h2
    by_cases hs : s = []
    · subst hs; simp [splitGo_nil]
    · have hlen : 1 ≤ s.length := List.length_pos.mpr hs
      have hstep := step_pos (m + 1) s (by omega) hs
      match f2 with
      | 0 => omega
      | f2 + 1 =>
        simp only [splitGo, if_neg hs]
        rw [ih f2 (s.drop (step (m + 1) s))
          (by simp only [List.length_drop]; omega)
          (by simp only [List.length_drop]; omega)]

theorem split_text_nil (mc : Nat) : split_text [] mc = [] := by
  cases mc <;> simp [split_text, splitGo_nil]

theorem split_text_cons (m : Nat) (s : List Char) (h : s ≠ []) :
    split_text s (m + 1)
      = s.take (step (m + 1) s)
          :: split_text (s.drop (step (m + 1) s)) (m + 1) := by
  have hlen : 1 ≤ s.length := List.length_pos.mpr h
  have hstep := step_pos (m + 1) s (by omega) h
  simp only [split_text]
  match hL : s.length, hlen with
  | L + 1, _ =>
    simp only [splitGo, if_neg h]
    rw [splitGo_fuel_inv m L (s.drop (step (m + 1) s)).length
      (s.drop (step (m + 1) s))
      (by simp only [List.length_drop]; omega) (le_refl _)]

theorem split_text_flatten (mc : Nat) (hmc : 1 ≤ mc) :
    ∀ (n : Nat) (s : List Char), s.length ≤ n →
      (split_text s mc).flatten = s := by
  intro n
  induction n with
  | zero =>
    intro s h
    have : s = [] := List.eq_nil_of_length_eq_zero (by omega)
    subst this
    simp [split_text_nil]
  | succ n ih =>
    intro s h
    by_cases hs : s = []
    · subst hs; simp [split_text_nil]
    · match mc, hmc with
      | m + 1, _ =>
        rw [split_text_cons m s hs]
        have hstep := step_pos (m + 1) s (by omega) hs
        have hlen : 1 ≤ s.length := List.length_pos.mpr hs
        have hdrop : (s.drop (step (m + 1) s)).length ≤ n := by
          simp only [List.length_drop]; omega
        simp only [List.flatten_cons]
        rw [ih _ hdrop, List.take_append_drop]

theorem split_text_chunk_le (mc : Nat) (hmc : 1 ≤ mc) :
    ∀ (n : Nat) (s : List Char), s.length ≤ n →
      ∀ c ∈ split_text s mc, c.length ≤ mc := by
  intro n
  induction n with
  | zero =>
    intro s h c hc
    have : s = [] := List.eq_nil_of_length_eq_zero (by omega)
    subst this
    simp [split_text_nil] at hc
  | succ n ih =>
    intro s h c hc
    by_cases hs : s = []
    · subst hs; simp [split_text_nil] at hc
    · match mc, hmc with
      | m + 1, _ =>
        rw [split_text_cons m s hs] at hc
        have hstep := step_pos (m + 1) s (by omega) hs
        have hlen : 1 ≤ s.length := List.length_pos.mpr hs
        rcases List.mem_cons.mp hc with hc' | hc'
        · subst hc'
          have := step_le (m + 1) s
          simp only [List.length_take]
          omega
        · exact ih (s.drop (step (m + 1) s))
            (by simp only [List.length_drop]; omega) c hc'

example : split_text "line1\nline2\nline3\n".toList 6
    = ["line1\n".toList, "line2\n".toList, "line3\n".toList] := by decide
example : split_text "ab\ncdef".toList 4 = ["ab\nc".toList, "def".toList] := by decide
example : split_text "a. bcd".toList 4 = ["a. b".toList, "cd".toList] := by decide
example : split_text "ab. cd".toList 4 = ["ab. ".toList, "cd".toList] := by decide
example : split_text "abcd. efgh".toList 7 = ["abcd.".toList, " efgh".toList] := by decide
example : split_text "".toList 5 = [] := by decide

/-- **C1.** For every text `T` and every `max_chars ≥ 1`, concatenating the
chunks returned by `_split_text(T, max_chars)` in order yields exactly `T`:
the splitter never drops or duplicates characters. -/
theorem C1_split_concat_exact (text : List Char) (max_chars : Nat)
    (h : 1 ≤ max_chars) : (split_text text max_chars).flatten = text :=
  split_text_flatten max_chars h text.length text (le_refl _)

theorem C1_split_concat_exact_witness :
    1 ≤ 6 ∧ (split_text "line1\nline2\nline3\n".toList 6).flatten
      = "line1\nline2\nline3\n".toList :=
  ⟨by decide, C1_split_concat_exact "line1\nline2\nline3\n".toList 6 (by decide)⟩

/-- **C6.** For every text `T` and every `max_chars ≥ 1`, no chunk returned by
`_split_text(T, max_chars)` has length greater than `max_chars`. -/
theorem C6_chunk_length_le (text : List Char) (max_chars : Nat)
    (h : 1 ≤ max_chars) : ∀ c ∈ split_text text max_chars, c.length ≤ max_chars :=
  split_text_chunk_le max_chars h text.length text (le_refl _)

theorem C6_chunk_length_le_witness :
    1 ≤ 4 ∧ ∀ c ∈ split_text "ab\ncdefgh".toList 4, c.length ≤ 4 :=
  ⟨by decide, C6_chunk_length_le "ab\ncdefgh".toList 4 (by decide)⟩

/-- **C8, counterexample.** On `"ab\ncdef"` with `max_chars = 4` the last
newline of the first window sits at offset `2 = 4 * 0.5`: the claim's rule
(`≥ max_chars * 0.5`) accepts it, but the code's rule
(`> int(max_chars * 0.5)`) rejects it and cuts hard at 4, so the code's
output differs from the claim's. -/
theorem C8_counterexample :
    split_text "ab\ncdef".toList 4 = ["ab\nc".toList, "def".toList]
    ∧ split_text_spec_midpoint "ab\ncdef".toList 4
        = ["ab\n".toList, "cdef".toList]
    ∧ ["ab\nc".toList, "def".toList]
        ≠ ["ab\n".toList, "cdef".toList] := by
  refine ⟨by decide, by decide, by decide⟩

theorem lastIdxSat_eq_some_of {p : Nat → Bool} :
    ∀ {w j : Nat}, j < w → p j = true → (∀ j' < w, j < j' → p j' = false) →
      lastIdxSat p w = some j := by
  intro w
  induction w with
  | zero => intro j h _ _; omega
  | succ w ih =>
    intro j hj hp hmax
    by_cases hw : j = w
    · subst hw
      simp [lastIdxSat, hp]
    · have hlt : j < w := by omega
      have hpw : p w = false := hmax w (by omega) (by omega)
      simp only [lastIdxSat, hpw]
      simp only [Bool.false_eq_true, if_false]
      exact ih hlt hp (fun j' h1 h2 => hmax j' (by omega) h2)

theorem lastIdxSat_eq_none_of {p : Nat → Bool} :
    ∀ {w : Nat}, (∀ j < w, p j = false) → lastIdxSat p w = none := by
  intro w
  induction w with
  | zero => intro _; rfl
  | succ w ih =>
    intro h
    have hw : p w = false := h w (by omega)
    simp only [lastIdxSat, hw, Bool.false_eq_true, if_false]
    exact ih (fun j hj => h j (by omega))

theorem nlAt_true_iff (s : List Char) (j : Nat) :
    nlAt s j = true ↔ s.get? j = some '\n' := by
  simp [nlAt]

theorem dotSpaceAt_true_iff (s : List Char) (j : Nat) :
    dotSpaceAt s j = true ↔ (s.get? j = some '.' ∧ s.get? (j + 1) = some ' ') := by
  simp [dotSpaceAt]

theorem cutCandidate_of_lastNl {mc : Nat} {s : List Char} {j : Nat}
    (h : IsLastNl s (window mc s) j) : cutCandidate mc s = some j := by
  rcases h with ⟨h1, h2, h3⟩
  unfold cutCandidate
  rw [lastIdxSat_eq_some_of h1 ((nlAt_true_iff s j).mpr h2)
    (fun j' hj' hlt => by
      have := h3 j' hj' hlt
      cases hb : nlAt s j'
      · rfl
      · exact absurd ((nlAt_true_iff s j').mp hb) this)]

theorem cutCandidate_of_lastDot {mc : Nat} {s : List Char} {j : Nat}
    (hnl : NoNlIn s (window mc s)) (h : IsLastDotSpace s (window mc s) j) :
    cutCandidate mc s = some j := by
  rcases h with ⟨h1, h2, h3, h4⟩
  unfold cutCandidate
  rw [lastIdxSat_eq_none_of (fun j' hj' => by
    have := hnl j' hj'
    cases hb : nlAt s j'
    · rfl
    · exact absurd ((nlAt_true_iff s j').mp hb) this)]
  rw [lastIdxSat_eq_some_of h1 ((dotSpaceAt_true_iff s j).mpr ⟨h2, h3⟩)
    (fun j' hj' hlt => by
      have := h4 j' hj' hlt
      cases hb : dotSpaceAt s j'
      · rfl
      · exact absurd ((dotSpaceAt_true_iff s j').mp hb) this)]

theorem cutCandidate_of_none {mc : Nat} {s : List Char}
    (hnl : NoNlIn s (window mc s)) (hds : NoDotSpaceIn s (window mc s)) :
    cutCandidate mc s = none := by
  unfold cutCandidate
  rw [lastIdxSat_eq_none_of (fun j' hj' => by
    have := hnl j' hj'
    cases hb : nlAt s j'
    · rfl
    · exact absurd ((nlAt_true_iff s j').mp hb) this)]
  exact lastIdxSat_eq_none_of (fun j' hj' => by
    have := hds j' hj'
    cases hb : dotSpaceAt s j'
    · rfl
    · exact absurd ((dotSpaceAt_true_iff s j').mp hb) this)

/-- **C8, amended.** For every window scanned by the splitter: the cut
candidate is the last newline inside the window if one exists, otherwise the
last `'. '` occurrence fitting inside the window; the candidate is accepted
— the chunk ends right after it — exactly when its offset from the window
start is **strictly greater than `int(max_chars * 0.5)`** (the floored half,
rather than the claim's `≥ max_chars * 0.5`); otherwise, and when no
candidate exists, the window is cut hard at `max_chars`. -/
theorem C8_cut_rule (mc : Nat) (hmc : 1 ≤ mc) (s : List Char) (hs : s ≠ [])
    (j : Nat) :
    ((IsLastNl s (window mc s) j
        ∨ (NoNlIn s (window mc s) ∧ IsLastDotSpace s (window mc s) j)) →
      split_text s mc =
        if mc / 2 < j
        then s.take (j + 1) :: split_text (s.drop (j + 1)) mc
        else s.take (window mc s)
          :: split_text (s.drop (window mc s)) mc)
    ∧ ((NoNlIn s (window mc s) ∧ NoDotSpaceIn s (window mc s)) →
      split_text s mc
        = s.take (window mc s) :: split_text (s.drop (window mc s)) mc) := by
  match mc, hmc with
  | m + 1, _ =>
    constructor
    · intro hcand
      have hc : cutCandidate (m + 1) s = some j := by
        rcases hcand with h | ⟨h1, h2⟩
        · exact cutCandidate_of_lastNl h
        · exact cutCandidate_of_lastDot h1 h2
      have hstep : step (m + 1) s
          = if (m + 1) / 2 < j then j + 1 else window (m + 1) s := by
        unfold step
        rw [hc]
      rw [split_text_cons m s hs, hstep]
      by_cases hj : (m + 1) / 2 < j
      · simp [hj]
      · simp [hj]
    · intro ⟨h1, h2⟩
      have hc : cutCandidate (m + 1) s = none := cutCandidate_of_none h1 h2
      have hstep : step (m + 1) s = window (m + 1) s := by
        unfold step
        rw [hc]
      rw [split_text_cons m s hs, hstep]

theorem C8_cut_rule_witness :
    (1 ≤ 4 ∧ "ab\ncdef".toList ≠ []
      ∧ IsLastNl "ab\ncdef".toList (window 4 "ab\ncdef".toList) 2)
    ∧ split_text "ab\ncdef".toList 4 =
        (if 4 / 2 < 2
         then "ab\ncdef".toList.take 3 :: split_text ("ab\ncdef".toList.drop 3) 4
         else "ab\ncdef".toList.take (window 4 "ab\ncdef".toList)
           :: split_text ("ab\ncdef".toList.drop (window 4 "ab\ncdef".toList)) 4) :=
  ⟨⟨by decide, by decide, by decide⟩,
    (C8_cut_rule 4 (by decide) "ab\ncdef".toList (by decide) 2).1
      (Or.inl (by decide))⟩

theorem flatten_map_shift (g : Nat → Bytes) (n : Nat) :
    ((List.range (n + 1)).map g).flatten
      = g 0 ++ ((List.range n).map (fun d => g (d + 1))).flatten := by
  rw [List.range_succ_eq_map]
  simp only [List.map_cons, List.flatten_cons, List.map_map]
  rfl

theorem assembleGo_all_present (store : Nat → Option Bytes) (payload : Nat → Bytes) :
    ∀ (fuel i : Nat) (acc : Bytes),
      (∀ d < fuel, store (i + d) = some (payload (i + d))) →
      assembleGo store i fuel acc
        = (acc ++ ((List.range fuel).map (fun d => payload (i + d))).flatten,
            none) := by
  intro fuel
  induction fuel with
  | zero => intro i acc _; simp [assembleGo]
  | succ fuel ih =>
    intro i acc h
    have h0 : store i = some (payload i) := by
      have := h 0 (by omega)
      simpa using this
    simp only [assembleGo, h0]
    rw [ih (i + 1) (acc ++ payload i)
      (fun d hd => by
        have := h (d + 1) (by omega)
        rw [show i + (d + 1) = i + 1 + d by omega] at this
        exact this)]
    rw [flatten_map_shift (fun d => payload (i + d)) fuel]
    rw [show (fun d => payload (i + (d + 1))) = (fun d => payload (i + 1 + d))
        from funext (fun d => by rw [show i + (d + 1) = i + 1 + d by omega])]
    simp only [Nat.add_zero]
    rw [List.append_assoc]

theorem assembleGo_first_missing (store : Nat → Option Bytes) :
    ∀ (m fuel i : Nat) (acc : Bytes),
      m < fuel → store (i + m) = none →
      (∀ d < m, (store (i + d)).isSome) →
      assembleGo store i fuel acc
        = (acc
            ++ ((List.range m).map (fun d => (store (i + d)).getD [])).flatten,
           some (i + m)) := by
  intro m
  induction m with
  | zero =>
    intro fuel i acc hm h0 _
    match fuel, hm with
    | fuel + 1, _ =>
      simp only [assembleGo]
      rw [show i + 0 = i by omega] at h0
      simp [h0]
  | succ m ih =>
    intro fuel i acc hm hmiss hpre
    match fuel, hm with
    | fuel + 1, _ =>
      have h0 : (store i).isSome := by
        have := hpre 0 (by omega)
        simpa using this
      rcases Option.isSome_iff_exists.mp h0 with ⟨b, hb⟩
      simp only [assembleGo, hb]
      rw [ih fuel (i + 1) (acc ++ b) (by omega)
        (by rw [show i + 1 + m = i + (m + 1) by omega]; exact hmiss)
        (fun d hd => by
          have := hpre (d + 1) (by omega)
          rw [show i + (d + 1) = i + 1 + d by omega] at this
          exact this)]
      rw [flatten_map_shift (fun d => (store (i + d)).getD []) m]
      rw [show (fun d => (store (i + (d + 1))).getD [])
            = (fun d => (store (i + 1 + d)).getD [])
          from funext (fun d => by rw [show i + (d + 1) = i + 1 + d by omega])]
      rw [show i + (m + 1) = i + 1 + m by omega]
      simp only [Nat.add_zero, hb, Option.getD_some]
      rw [List.append_assoc]

/-- **C4.** For every `total_chunks ≥ 1` and every arrival order of the chunk
indices `0..total_chunks-1` — repeats allowed, the later payload overwriting
the earlier, which is the third conjunct — `complete` called after all chunks
have arrived succeeds and writes exactly the concatenation of the final
payloads of chunks `0, 1, ..., total_chunks-1` in index order. -/
theorem C4_complete_reassembles (events : List (Nat × Bytes))
    (total_chunks : Nat) (payload : Nat → Bytes)
    (_h1 : 1 ≤ total_chunks)
    (h2 : ∀ i < total_chunks, partStore events i = some (payload i)) :
    (upload_complete events total_chunks).result = .ok ()
    ∧ (upload_complete events total_chunks).written
        = ((List.range total_chunks).map payload).flatten
    ∧ ∀ (es : List (Nat × Bytes)) (i : Nat) (b : Bytes),
        partStore (es ++ [(i, b)]) i = some b := by
  have hgo := assembleGo_all_present (partStore events) payload total_chunks 0 []
    (fun d hd => by simpa using h2 d hd)
  refine ⟨?_, ?_, ?_⟩
  · unfold upload_complete
    rw [hgo]
  · unfold upload_complete
    rw [hgo]
    simp
  · intro es i b
    unfold partStore
    rw [List.filter_append]
    simp

theorem C4_complete_reassembles_witness :
    (1 ≤ 3
      ∧ ∀ i < 3, partStore [(2, [30]), (0, [10, 11]), (1, [20])] i
          = some ([[10, 11], [20], [30]].getD i []))
    ∧ (upload_complete [(2, [30]), (0, [10, 11]), (1, [20])] 3).result = .ok ()
    ∧ (upload_complete [(2, [30]), (0, [10, 11]), (1, [20])] 3).written
        = ((List.range 3).map (fun i => [[10, 11], [20], [30]].getD i [])).flatten :=
  ⟨⟨by decide, by decide⟩,
    (C4_complete_reassembles [(2, [30]), (0, [10, 11]), (1, [20])] 3
      (fun i => [[10, 11], [20], [30]].getD i []) (by decide) (by decide)).1,
    ((C4_complete_reassembles [(2, [30]), (0, [10, 11]), (1, [20])] 3
      (fun i => [[10, 11], [20], [30]].getD i []) (by decide) (by decide)).2).1⟩

/-- **C5.** Whenever at least one index in `0..total_chunks-1` is missing when
`complete` is called, it fails naming the first (smallest) missing index `m`,
no matter which other indices are present. -/
theorem C5_first_missing_index (events : List (Nat × Bytes))
    (total_chunks m : Nat)
    (hm : m < total_chunks) (hmiss : partStore events m = none)
    (hbefore : ∀ j < m, (partStore events j).isSome) :
    (upload_complete events total_chunks).result = .error m := by
  have hgo := assembleGo_first_missing (partStore events) m total_chunks 0 []
    (by omega) (by simpa using hmiss) (fun d hd => by simpa using hbefore d hd)
  unfold upload_complete
  rw [hgo]
  simp

theorem C5_first_missing_index_witness :
    (1 < 4 ∧ partStore [(0, [7]), (2, [9]), (3, [9])] 1 = none
      ∧ ∀ j < 1, (partStore [(0, [7]), (2, [9]), (3, [9])] j).isSome)
    ∧ (upload_complete [(0, [7]), (2, [9]), (3, [9])] 4).result = .error 1 :=
  ⟨⟨by decide, by decide, by decide⟩,
    C5_first_missing_index [(0, [7]), (2, [9]), (3, [9])] 4 1
      (by decide) (by decide) (by decide)⟩

/-- **C7, counterexample.** A known session holding only chunk 0 of 2: the
missing-chunk exception for index 1 is raised after chunk 0 was already
copied into `final_path`, `shutil.rmtree` (placed after the loop, not in a
`finally`) never runs, and the partially written output remains — refuting
cleanup on every path beyond the missing-index check and refuting that index
verification leaves no partial output behind. -/
theorem C7_counterexample :
    (upload_complete [(0, [1, 2])] 2).result = .error 1
    ∧ (upload_complete [(0, [1, 2])] 2).cleaned = false
    ∧ (upload_complete [(0, [1, 2])] 2).written = [1, 2]
    ∧ [1, 2] ≠ ([] : Bytes) := by
  refine ⟨rfl, rfl, rfl, by decide⟩

theorem assembleGo_missing_inv (store : Nat → Option Bytes)
    (total : Nat) (m : Nat)
    (h : (assembleGo store 0 total []).2 = some m) :
    m < total ∧ store m = none ∧ (∀ j < m, (store j).isSome) := by
  by_cases hall : ∀ i < total, (store i).isSome
  · have hgo := assembleGo_all_present store (fun i => (store i).getD [])
      total 0 [] (fun d hd => by
        rcases Option.isSome_iff_exists.mp (hall d hd) with ⟨b, hb⟩
        simp [Nat.zero_add, hb])
    rw [hgo] at h
    simp at h
  · push_neg at hall
    have hex : ∃ j, store j = none ∧ j < total := by
      rcases hall with ⟨i, hi, hnone⟩
      exact ⟨i, Option.not_isSome_iff_eq_none.mp hnone, hi⟩
    have hm0 := Nat.find_spec hex
    have hmin : ∀ j < Nat.find hex, (store j).isSome := by
      intro j hj
      by_contra hnot
      have hjn : store j = none := Option.not_isSome_iff_eq_none.mp hnot
      have hnm : ¬(store j = none ∧ j < total) := Nat.find_min hex hj
      exact hnm ⟨hjn, by omega⟩
    have hgo := assembleGo_first_missing store (Nat.find hex) total 0 []
      (by omega) (by simpa using hm0.1) (fun d hd => by simpa using hmin d hd)
    rw [hgo] at h
    simp at h
    subst h
    exact ⟨hm0.2, hm0.1, hmin⟩

/-- **C7, amended.** Chunk-storage cleanup (`rmtree`) runs exactly on the
full-success path: when `complete` raises `missing chunk m`, the chunk
directory is *not* deleted, and — because the missing-index check is
interleaved with concatenation — the output file is left behind holding the
concatenation of chunks `0..m-1`. -/
theorem C7_cleanup_only_on_success (events : List (Nat × Bytes))
    (total_chunks : Nat) :
    ((upload_complete events total_chunks).result = .ok ()
      → (upload_complete events total_chunks).cleaned = true)
    ∧ ∀ m, (upload_complete events total_chunks).result = .error m
      → (upload_complete events total_chunks).cleaned = false
        ∧ (upload_complete events total_chunks).written
            = ((List.range m).map
                (fun i => (partStore events i).getD [])).flatten
        ∧ m < total_chunks ∧ partStore events m = none := by
  constructor
  · intro h
    unfold upload_complete at h ⊢
    rcases hgo : assembleGo (partStore events) 0 total_chunks [] with ⟨w, _ | i⟩
    · simp [hgo]
    · rw [hgo] at h
      simp at h
  · intro m h
    have hsome : (assembleGo (partStore events) 0 total_chunks []).2 = some m := by
      unfold upload_complete at h
      rcases hgo : assembleGo (partStore events) 0 total_chunks [] with ⟨w, _ | i⟩
      · rw [hgo] at h
        simp at h
      · rw [hgo] at h
        simp only [hgo] at h ⊢
        cases h
        rfl
    rcases assembleGo_missing_inv (partStore events) total_chunks m hsome
      with ⟨hlt, hnone, hpre⟩
    have hgo := assembleGo_first_missing (partStore events) m total_chunks 0 []
      (by omega) (by simpa using hnone) (fun d hd => by simpa using hpre d hd)
    unfold upload_complete
    rw [hgo]
    simpa using ⟨hlt, hnone⟩

theorem C7_cleanup_only_on_success_witness :
    (upload_complete [(0, [5, 6])] 2).cleaned = false
    ∧ (upload_complete [(0, [5, 6])] 2).written
        = ((List.range 1).map
            (fun i => (partStore [(0, [5, 6])] i).getD [])).flatten
    ∧ 1 < 2 ∧ partStore [(0, [5, 6])] 1 = none :=
  (C7_cleanup_only_on_success [(0, [5, 6])] 2).2 1 rfl

theorem pmwr_tail {a : JobState} {l : List JobState}
    (h : ProgressMonotoneWhileRunning (a :: l)) :
    ProgressMonotoneWhileRunning l := by
  cases l with
  | nil => trivial
  | cons b rest => exact h.2

theorem pmwr_drop (n : Nat) :
    ∀ l : List JobState, ProgressMonotoneWhileRunning l →
      ProgressMonotoneWhileRunning (l.drop n) := by
  induction n with
  | zero => intro l h; simpa using h
  | succ n ih =>
    intro l h
    cases l with
    | nil => simpa using h
    | cons a rest => simpa using ih rest (pmwr_tail h)

theorem pmwr_of_chain_le :
    ∀ l : List JobState,
      List.Chain' (fun a b : JobState => a.progress ≤ b.progress) l →
      ProgressMonotoneWhileRunning l := by
  intro l
  induction l with
  | nil => intro _; trivial
  | cons a rest ih =>
    cases rest with
    | nil => intro _; trivial
    | cons b rest' =>
      intro h
      rcases List.chain'_cons.mp h with ⟨h1, h2⟩
      exact ⟨fun _ => h1, ih h2⟩

theorem clamp01_le {p : ℚ} (hp : 0 ≤ p) : clamp01 p ≤ p :=
  max_le hp (min_le_right 1 p)

theorem runStates_drop2 (text : List Char) (maxChars : Nat)
    (translate : List Char → List Char) :
    (runStates text maxChars translate).drop 2
      = ((translate_file_to_docx text maxChars translate).events.map
          (fun e => ({ status := Status.running, progress := clamp01 e.1,
                        message := e.2 } : JobState)))
        ++ [{ status := .done, progress := 1, message := "Done" }] := by
  simp [runStates]

theorem runStates_getLast (text : List Char) (maxChars : Nat)
    (translate : List Char → List Char) :
    (runStates text maxChars translate).getLast?
      = some { status := .done, progress := 1, message := "Done" } := by
  have hshape : runStates text maxChars translate
      = ({ status := .queued, progress := 0, message := "Queued" }
          :: { status := .running, progress := 1 / 100, message := "Starting" }
          :: (translate_file_to_docx text maxChars translate).events.map
              (fun e => ({ status := Status.running, progress := clamp01 e.1,
                            message := e.2 } : JobState)))
        ++ [{ status := .done, progress := 1, message := "Done" }] := by
    simp [runStates]
  rw [hshape, List.getLast?_concat]

theorem translate_events_eq (text : List Char) (maxChars : Nat)
    (translate : List Char → List Char) :
    (translate_file_to_docx text maxChars translate).events
      = ((List.range (split_text text maxChars).length).map
          (fun (i : Nat) =>
            ((i : ℚ) / ((max 1 (split_text text maxChars).length : Nat) : ℚ),
              chunkMsg i (max 1 (split_text text maxChars).length))))
        ++ [((95 : ℚ) / 100, "Writing Word document"), (1, "Done")] := rfl

/-- **C2, counterexample.** With one chunk, the runner first stores
`progress = 0.01` (`'Starting'`), then the pipeline's first chunk callback
stores `0 / 1 = 0.0` — a strict decrease while status is `running`.  With 21
chunks, the last chunk callback stores `20/21 ≈ 0.952` and the subsequent
`'Writing Word document'` update stores `0.95` — a second strict decrease
while `running`. -/
theorem C2_counterexample :
    ¬ ProgressMonotoneWhileRunning (runStates ['a'] 1 (fun c => c))
    ∧ ¬ ProgressMonotoneWhileRunning
        (runStates ['a', 'a', 'a', 'a', 'a', 'a', 'a', 'a', 'a', 'a', 'a',
          'a', 'a', 'a', 'a', 'a', 'a', 'a', 'a', 'a', 'a'] 1 (fun c => c)) := by
  constructor
  · intro h
    have hsplitlen : (split_text ['a'] 1).length = 1 := by decide
    have hev : (translate_file_to_docx ['a'] 1 (fun c => c)).events
        = [((0 : ℚ), chunkMsg 0 1),
           ((95 : ℚ) / 100, "Writing Word document"), (1, "Done")] := by
      rw [translate_events_eq, hsplitlen]
      norm_num [List.range_succ]
    have h1 := pmwr_drop 1 _ h
    have hd1 : (runStates ['a'] 1 (fun c => c)).drop 1
        = { status := Status.running, progress := 1 / 100, message := "Starting" }
          :: ((translate_file_to_docx ['a'] 1 (fun c => c)).events.map
              (fun e => ({ status := Status.running, progress := clamp01 e.1,
                            message := e.2 } : JobState)))
            ++ [{ status := .done, progress := 1, message := "Done" }] := by
      simp [runStates]
    rw [hd1, hev] at h1
    simp only [List.map_cons, List.map_nil, List.cons_append, List.nil_append,
      ProgressMonotoneWhileRunning] at h1
    have hle := h1.1
    norm_num [clamp01, min_def, max_def] at hle
  · intro h
    have hsplitlen :
        (split_text ['a', 'a', 'a', 'a', 'a', 'a', 'a', 'a', 'a', 'a', 'a',
          'a', 'a', 'a', 'a', 'a', 'a', 'a', 'a', 'a', 'a'] 1).length = 21 := by
      decide
    have hev : (translate_file_to_docx ['a', 'a', 'a', 'a', 'a', 'a', 'a', 'a',
          'a', 'a', 'a', 'a', 'a', 'a', 'a', 'a', 'a', 'a', 'a', 'a', 'a'] 1
          (fun c => c)).events
        = ((List.range 21).map
            (fun (i : Nat) => ((i : ℚ) / ((21 : Nat) : ℚ), chunkMsg i 21)))
          ++ [((95 : ℚ) / 100, "Writing Word document"), (1, "Done")] := by
      rw [translate_events_eq, hsplitlen]
      norm_num
    have h1 := pmwr_drop 22 _ h
    have hd : (runStates ['a', 'a', 'a', 'a', 'a', 'a', 'a', 'a', 'a', 'a',
          'a', 'a', 'a', 'a', 'a', 'a', 'a', 'a', 'a', 'a', 'a'] 1
          (fun c => c)).drop 22
        = [{ status := Status.running,
              progress := clamp01 (((20 : Nat) : ℚ) / ((21 : Nat) : ℚ)),
              message := chunkMsg 20 21 },
           { status := Status.running, progress := clamp01 ((95 : ℚ) / 100),
              message := "Writing Word document" },
           { status := Status.running, progress := clamp01 1,
              message := "Done" },
           { status := .done, progress := 1, message := "Done" }] := by
      have hstep : (runStates ['a', 'a', 'a', 'a', 'a', 'a', 'a', 'a', 'a',
            'a', 'a', 'a', 'a', 'a', 'a', 'a', 'a', 'a', 'a', 'a', 'a'] 1
            (fun c => c)).drop 22
          = (((translate_file_to_docx ['a', 'a', 'a', 'a', 'a', 'a', 'a', 'a',
                'a', 'a', 'a', 'a', 'a', 'a', 'a', 'a', 'a', 'a', 'a', 'a',
                'a'] 1 (fun c => c)).events.map
              (fun e : ℚ × String =>
                ({ status := Status.running, progress := clamp01 e.1,
                    message := e.2 } : JobState)))
              ++ [({ status := Status.done, progress := 1,
                      message := "Done" } : JobState)]).drop 20 := by
        simp [runStates]
      rw [hstep, hev, List.map_append, List.append_assoc,
        List.drop_append_eq_append_drop, ← List.map_drop, ← List.map_drop,
        show List.drop 20 (List.range 21) = [20] from by decide]
      simp
    rw [hd] at h1
    simp only [ProgressMonotoneWhileRunning] at h1
    have hle := h1.1
    norm_num [clamp01, min_def, max_def] at hle

theorem clamp01_mono {p q : ℚ} (h : p ≤ q) : clamp01 p ≤ clamp01 q :=
  max_le_max (le_refl 0) (min_le_min (le_refl 1) h)

theorem clamp01_95 : clamp01 ((95 : ℚ) / 100) = 95 / 100 := by
  norm_num [clamp01, min_def, max_def]

theorem clamp01_one : clamp01 (1 : ℚ) = 1 := by
  norm_num [clamp01, min_def, max_def]

/-- **C2, amended.** After the initial `'Starting'` update (which stores
`0.01` and can exceed the first chunk callback's `0.0`), the stored progress
is non-decreasing across all subsequent updates on the success path,
provided the text splits into at most 20 chunks (with more than 20 chunks
the last chunk fraction exceeds the fixed `0.95` of the document-write
update). -/
theorem C2_progress_monotone_after_start (text : List Char) (maxChars : Nat)
    (translate : List Char → List Char)
    (h20 : (split_text text maxChars).length ≤ 20) :
    ProgressMonotoneWhileRunning
      ((runStates text maxChars translate).drop 2) := by
  apply pmwr_of_chain_le
  rw [runStates_drop2, translate_events_eq, List.map_append, List.map_map]
  apply List.Pairwise.chain'
  simp only [List.map_cons, List.map_nil, List.cons_append, List.nil_append,
    List.append_assoc]
  set k := (split_text text maxChars).length with hk
  have hKpos : (0 : ℚ) < ((max 1 k : Nat) : ℚ) := by
    have h1 : 0 < max 1 k := lt_of_lt_of_le one_pos (le_max_left 1 k)
    exact_mod_cast h1
  refine List.pairwise_append.mpr ⟨?_, ?_, ?_⟩
  · rw [List.pairwise_map]
    refine (List.pairwise_lt_range k).imp ?_
    intro a b hab
    simp only [Function.comp_apply]
    exact clamp01_mono
      ((div_le_div_iff_of_pos_right hKpos).mpr
        (by exact_mod_cast Nat.le_of_lt hab))
  · refine List.Pairwise.cons ?_ (List.Pairwise.cons ?_
      (List.Pairwise.cons ?_ List.Pairwise.nil))
    · intro y hy
      simp only [List.mem_cons, List.not_mem_nil, or_false] at hy
      rcases hy with rfl | rfl
      · simp only
        rw [clamp01_95, clamp01_one]
        norm_num
      · simp only
        rw [clamp01_95]
        norm_num
    · intro y hy
      simp only [List.mem_cons, List.not_mem_nil, or_false] at hy
      subst hy
      simp only
      rw [clamp01_one]
    · intro y hy
      simp at hy
  · intro x hx y hy
    rcases List.mem_map.mp hx with ⟨i, hi, rfl⟩
    have hik : i < k := List.mem_range.mp hi
    have hk1 : 1 ≤ k := by omega
    have hmax : max 1 k = k := max_eq_right hk1
    have hx95 : clamp01 ((i : ℚ) / ((max 1 k : Nat) : ℚ)) ≤ 95 / 100 := by
      have hnonneg : (0 : ℚ) ≤ (i : ℚ) / ((max 1 k : Nat) : ℚ) :=
        div_nonneg (Nat.cast_nonneg i) (le_of_lt hKpos)
      refine le_trans (clamp01_le hnonneg) ?_
      rw [hmax]
      have hkpos : (0 : ℚ) < (k : ℚ) := by exact_mod_cast hk1
      rw [div_le_div_iff₀ hkpos (by norm_num : (0 : ℚ) < 100)]
      have : i * 100 ≤ 95 * k := by omega
      exact_mod_cast this
    simp only [Function.comp_apply]
    simp only [List.mem_cons, List.not_mem_nil, or_false] at hy
    rcases hy with rfl | rfl | rfl
    · simpa [clamp01_95] using hx95
    · simp only
      rw [clamp01_one]
      exact le_trans hx95 (by norm_num)
    · exact le_trans hx95 (by norm_num)

theorem C2_progress_monotone_after_start_witness :
    (split_text "hello".toList 8000).length ≤ 20
    ∧ ProgressMonotoneWhileRunning
        ((runStates "hello".toList 8000 (fun c => c)).drop 2) :=
  ⟨by decide,
    C2_progress_monotone_after_start "hello".toList 8000 (fun c => c)
      (by decide)⟩

theorem runStates_statuses (text : List Char) (maxChars : Nat)
    (translate : List Char → List Char) :
    (runStates text maxChars translate).map (fun st => st.status)
      = Status.queued
        :: List.replicate
            ((translate_file_to_docx text maxChars translate).events.length + 1)
            Status.running
        ++ [Status.done] := by
  simp only [runStates, List.map_append, List.map_cons, List.map_map,
    List.map_nil, List.cons_append, List.replicate_succ]
  congr 1
  congr 1
  congr 1
  exact List.map_const' _ _

/-- **C3, counterexample.** Starting a job on an `.xyz` file does *not*
produce an `error` job: `extract_text` returns the placeholder message
instead of failing, the placeholder is translated like ordinary text, and
the job finishes in state `done` (with progress 1.0) rather than `error`. -/
theorem C3_counterexample :
    extract_text ⟨".xyz".toList, "hi".toList, []⟩
        = unsupportedMessage ".xyz".toList
    ∧ (runJobFile ⟨".xyz".toList, "hi".toList, []⟩ 8000 (fun c => c)).getLast?
        = some { status := Status.done, progress := 1, message := "Done" }
    ∧ Status.done ≠ Status.error := by
  refine ⟨by decide, ?_, by decide⟩
  exact runStates_getLast _ _ _

/-- **C3, amended.** For every file whose (lower-cased) extension is neither
a supported text extension nor `.docx`, extraction returns the placeholder
message `[Unsupported file type: ...]` instead of failing, and the job
transitions `queued -> running -> ... -> done` with final progress 1.0 and
the placeholder as the translated content. -/
theorem C3_unsupported_ext_reaches_done (f : SrcFile) (maxChars : Nat)
    (translate : List Char → List Char)
    (hsup : lowerStr f.ext ∉ supportedTextExts)
    (hdocx : lowerStr f.ext ≠ ".docx".toList) :
    extract_text f = unsupportedMessage (lowerStr f.ext)
    ∧ (∃ nrun : Nat, 1 ≤ nrun
        ∧ (runJobFile f maxChars translate).map (fun st => st.status)
            = Status.queued :: List.replicate nrun Status.running
              ++ [Status.done])
    ∧ (runJobFile f maxChars translate).getLast?
        = some { status := Status.done, progress := 1, message := "Done" } := by
  refine ⟨?_, ?_, runStates_getLast _ _ _⟩
  · simp only [extract_text, if_neg hsup, if_neg hdocx]
  · exact ⟨(translate_file_to_docx (extract_text f) maxChars
        translate).events.length + 1,
      by omega, runStates_statuses _ _ _⟩

theorem C3_unsupported_ext_reaches_done_witness :
    (lowerStr ".xyz".toList ∉ supportedTextExts
      ∧ lowerStr ".xyz".toList ≠ ".docx".toList)
    ∧ extract_text ⟨".xyz".toList, ['h'], []⟩
        = unsupportedMessage (lowerStr ".xyz".toList)
    ∧ (∃ nrun : Nat, 1 ≤ nrun
        ∧ (runJobFile ⟨".xyz".toList, ['h'], []⟩ 10 (fun c => c)).map
            (fun st => st.status)
          = Status.queued :: List.replicate nrun Status.running
            ++ [Status.done])
    ∧ (runJobFile ⟨".xyz".toList, ['h'], []⟩ 10 (fun c => c)).getLast?
        = some { status := Status.done, progress := 1, message := "Done" } :=
  ⟨⟨by decide, by decide⟩,
    (C3_unsupported_ext_reaches_done ⟨".xyz".toList, ['h'], []⟩ 10
      (fun c => c) (by decide) (by decide)).1,
    (C3_unsupported_ext_reaches_done ⟨".xyz".toList, ['h'], []⟩ 10
      (fun c => c) (by decide) (by decide)).2.1,
    (C3_unsupported_ext_reaches_done ⟨".xyz".toList, ['h'], []⟩ 10
      (fun c => c) (by decide) (by decide)).2.2⟩

/-- **C9.** For the empty input text and every `max_chars ≥ 1`,
`_split_text` returns zero chunks (never a single empty chunk); a pipeline
run over empty extracted text therefore invokes the translation collaborator
zero times, still hands the (empty) output to the document writer, and the
job still reaches `done`. -/
theorem C9_empty_text_zero_chunks (maxChars : Nat) (_h : 1 ≤ maxChars)
    (translate : List Char → List Char) :
    split_text [] maxChars = []
    ∧ (translate_file_to_docx [] maxChars translate).translatorCalls = 0
    ∧ (translate_file_to_docx [] maxChars translate).output = []
    ∧ (runStates [] maxChars translate).getLast?
        = some { status := Status.done, progress := 1, message := "Done" } := by
  refine ⟨split_text_nil maxChars, ?_, ?_, runStates_getLast _ _ _⟩
  · simp [translate_file_to_docx, split_text_nil]
  · simp [translate_file_to_docx, split_text_nil, List.intercalate]

theorem C9_empty_text_zero_chunks_witness :
    1 ≤ 5
    ∧ split_text [] 5 = []
    ∧ (translate_file_to_docx [] 5 (fun c => c)).translatorCalls = 0
    ∧ (translate_file_to_docx [] 5 (fun c => c)).output = []
    ∧ (runStates [] 5 (fun c => c)).getLast?
        = some { status := Status.done, progress := 1, message := "Done" } :=
  ⟨by decide, C9_empty_text_zero_chunks 5 (by decide) (fun c => c)⟩

theorem getAttr_none_any {k : String} {j : JobRec}
    (h : getAttr j k = none) (j' : JobRec) : getAttr j' k = none := by
  unfold getAttr at h ⊢
  split_ifs at h ⊢
  all_goals simp_all

set_option maxHeartbeats 2000000 in
theorem getAttr_setAttr_ne {k k' : String} (hne : k' ≠ k) (j : JobRec)
    (v : PyVal) : getAttr (setAttr j k' v) k = getAttr j k := by
  unfold setAttr
  split_ifs
  all_goals
    unfold getAttr
  all_goals
    split_ifs <;> first | rfl | (exfalso; subst_vars; exact hne rfl)

theorem update_fields_cons (j : JobRec) (kv : String × PyVal)
    (rest : List (String × PyVal)) :
    update_fields j (kv :: rest)
      = update_fields
          (if (getAttr j kv.1).isSome then setAttr j kv.1 kv.2 else j)
          rest := rfl

theorem update_fields_not_named (j : JobRec)
    (kwargs : List (String × PyVal)) (k : String)
    (h : k ∉ kwargs.map Prod.fst) :
    getAttr (update_fields j kwargs) k = getAttr j k := by
  induction kwargs generalizing j with
  | nil => rfl
  | cons kv rest ih =>
    simp only [List.map_cons, List.mem_cons] at h
    push_neg at h
    rw [update_fields_cons]
    by_cases hs : (getAttr j kv.1).isSome
    · rw [if_pos hs, ih _ h.2]
      exact getAttr_setAttr_ne (fun he => h.1 he.symm) j kv.2
    · rw [if_neg hs]
      exact ih _ h.2

theorem update_fields_all_unknown (j : JobRec)
    (kwargs : List (String × PyVal))
    (h : ∀ kv ∈ kwargs, getAttr j kv.1 = none) :
    update_fields j kwargs = j := by
  induction kwargs with
  | nil => rfl
  | cons kv rest ih =>
    have h0 : getAttr j kv.1 = none := h kv (List.mem_cons_self kv rest)
    rw [update_fields_cons, if_neg (by simp [h0])]
    exact ih (fun kv' hkv' => h kv' (List.mem_cons_of_mem kv hkv'))

/-- **C10.** `update(job_id, **fields)` on an existing job changes only the
named fields that are already attributes of the stored `Job` record: (1)
every field not named in the call keeps its value; (2) a name that is not a
`Job` attribute is never added — `getattr` still fails for it afterwards;
(3) a call whose names are all non-attributes leaves the record entirely
unchanged. -/
theorem C10_update_frame (j : JobRec) (kwargs : List (String × PyVal))
    (k : String) :
    (k ∉ kwargs.map Prod.fst →
      getAttr (update_fields j kwargs) k = getAttr j k)
    ∧ (getAttr j k = none → getAttr (update_fields j kwargs) k = none)
    ∧ ((∀ kv ∈ kwargs, getAttr j kv.1 = none) → update_fields j kwargs = j) :=
  ⟨update_fields_not_named j kwargs k,
   fun h => getAttr_none_any h _,
   update_fields_all_unknown j kwargs⟩

theorem C10_update_frame_witness :
    getAttr
        (update_fields
          ⟨.str "id1", .str "queued", .rat 0, .str "Queued", .str "f.txt",
            .ostr none, .str "ko", .ostr none⟩
          [("progress", PyVal.rat 1), ("bogus", PyVal.str "x")])
        "message"
      = getAttr
          ⟨.str "id1", .str "queued", .rat 0, .str "Queued", .str "f.txt",
            .ostr none, .str "ko", .ostr none⟩ "message"
    ∧ getAttr
        (update_fields
          ⟨.str "id1", .str "queued", .rat 0, .str "Queued", .str "f.txt",
            .ostr none, .str "ko", .ostr none⟩
          [("progress", PyVal.rat 1), ("bogus", PyVal.str "x")])
        "bogus" = none
    ∧ update_fields
        ⟨.str "id1", .str "queued", .rat 0, .str "Queued", .str "f.txt",
          .ostr none, .str "ko", .ostr none⟩
        [("bogus", PyVal.str "x")]
      = ⟨.str "id1", .str "queued", .rat 0, .str "Queued", .str "f.txt",
          .ostr none, .str "ko", .ostr none⟩ :=
  ⟨(C10_update_frame _ [("progress", PyVal.rat 1), ("bogus", PyVal.str "x")]
      "message").1 (by decide),
   (C10_update_frame
      (⟨.str "id1", .str "queued", .rat 0, .str "Queued", .str "f.txt",
        .ostr none, .str "ko", .ostr none⟩ : JobRec)
      [("progress", PyVal.rat 1), ("bogus", PyVal.str "x")] "bogus").2.1
      (by decide),
   (C10_update_frame _ [("bogus", PyVal.str "x")] "bogus").2.2 (by decide)⟩

end LocalAI
